import Mathlib

/-!
Verification of the PaGMO WFG hypervolume engine (src/util/hv_algorithm/wfg.cpp)
and of the problem base-class bounds invariant (src_new/problem/base.h).

Points are embedded as lists of rationals (`Point`); the C++ `double` arithmetic
is modelled by exact rational arithmetic.  The engine's mutable member
`m_current_slice` is threaded explicitly through the recursive functions: each
function takes the cursor value at entry and returns the cursor value the code
leaves in the member at exit.  The per-depth frames of the C++ code are
write-before-read scratch buffers inside one call; `limitset` is therefore
embedded as a function returning the list of valid points of the frame it
fills (the recorded `m_frames_size` is the length of that list).
Recursion depth is bounded by the dimension, so the recursion is embedded with
an explicit fuel argument; fuel exhaustion yields `none`.
-/

/-- A point: the C++ `double*` row of a frame, one rational per coordinate. -/
def Point : Type := List ℚ

instance : Inhabited Point := ⟨([] : List ℚ)⟩
instance : DecidableEq Point := inferInstanceAs (DecidableEq (List ℚ))

/-- Coordinate read `p[i]` of a point (out-of-range reads default to 0;
they never occur on the inputs the theorems quantify over). -/
def coord (p : Point) (i : ℕ) : ℚ := (p : List ℚ).getD i 0

/-- Outcomes of the dominance comparison, mirroring the `DOM_CMP_*` constants
used by `wfg::limitset`. -/
inductive DomRel : Type
  | a_dom_b
  | b_dom_a
  | ab_equal
  | incomparable
deriving DecidableEq, Repr

/-- Componentwise equality of two points on the first `k` coordinates. -/
def sliceEq (a b : Point) (k : ℕ) : Prop := ∀ i, i < k → coord a i = coord b i

/-- Componentwise `≤` of two points on the first `k` coordinates
(minimisation convention: smaller is better). -/
def sliceLe (a b : Point) (k : ℕ) : Prop := ∀ i, i < k → coord a i ≤ coord b i

instance (a b : Point) (k : ℕ) : Decidable (sliceEq a b k) :=
  Nat.decidableBallLT k fun i _ => coord a i = coord b i

instance (a b : Point) (k : ℕ) : Decidable (sliceLe a b k) :=
  Nat.decidableBallLT k fun i _ => coord a i ≤ coord b i

/-- Modelled from the spec: `base::dom_cmp` of the hv_algorithm base class is
not under src/; section 4.1 of the spec specifies the DominanceComparator as
returning one of four outcomes over the first `k` components: A strictly
dominates B (A ≤ B in all `k` dims, strictly smaller in at least one), B
strictly dominates A, A and B equal in all `k` dims, or neither dominates. -/
def dom_cmp (a b : Point) (k : ℕ) : DomRel :=
  if sliceEq a b k then .ab_equal
  else if sliceLe a b k then .a_dom_b
  else if sliceLe b a k then .b_dom_a
  else .incomparable

/-- Modelled from the spec: `base::volume_between` of the hv_algorithm base
class is not under src/; section 4.2 of the spec specifies the
VolumeCalculator as the product over the first `k` dimensions of
`reference[i] - point[i]`. -/
def volume_between (p r : Point) (k : ℕ) : ℚ :=
  ((List.range k).map (fun i => coord r i - coord p i)).prod

/-- One iteration of `wfg::cmp_func`'s loop, walking the given coordinate
indices in order: the comparator returns true at the first index where `a`
is strictly greater, false at the first index where `a` is strictly
smaller, and false when all indices are exhausted (wfg.cpp lines 37-47). -/
def cmpFuncAux : List ℕ → Point → Point → Bool
  | [], _, _ => false
  | i :: rest, a, b =>
    if coord b i < coord a i then true
    else if coord a i < coord b i then false
    else cmpFuncAux rest a b

/-- The sorting comparator `wfg::cmp_func`: lexicographic strictly-descending
comparison of the coordinates of the active slice, read from index
`s - 1` down to index 0. -/
def cmp_func (s : ℕ) (a b : Point) : Bool :=
  cmpFuncAux (List.range s).reverse a b

/-- The weak order induced by `cmp_func`, used to state the postcondition of
`std::sort` with the strict comparator `cmp_func s`: `a` may precede `b`
exactly when `b` does not strictly precede `a`. -/
def wfgOrder (s : ℕ) (a b : Point) : Prop := cmp_func s b a = false

instance (s : ℕ) (a b : Point) : Decidable (wfgOrder s a b) :=
  inferInstanceAs (Decidable (_ = false))

/-- Ascending lexicographic order on whole rational lists; tie-break order of
the modelled 2-D sweep algorithm. -/
def lexLeB : List ℚ → List ℚ → Bool
  | [], _ => true
  | _ :: _, [] => false
  | a :: as, b :: bs =>
    if a < b then true
    else if b < a then false
    else lexLeB as bs

/-- Propositional form of `lexLeB`. -/
def lexLe (a b : Point) : Prop := lexLeB a b = true

instance (a b : Point) : Decidable (lexLe a b) :=
  inferInstanceAs (Decidable (_ = true))

/-- Sweep of the modelled 2-D algorithm over points sorted by ascending first
coordinate: each point contributes a strip reaching to the next point's
first coordinate (or the reference), of height `refY` minus the smallest
second coordinate seen so far. -/
def hv2dSweep (refX refY : ℚ) : List Point → ℚ → ℚ
  | [], _ => 0
  | p :: rest, minY =>
    let m := min minY (coord p 1)
    let nextX := match rest with
      | [] => refX
      | q :: _ => coord q 0
    (nextX - coord p 0) * (refY - m) + hv2dSweep refX refY rest m

/-- Modelled from the spec: the `hv2d` algorithm is not under src/; section
4.3 of the spec specifies the 2-D specialisation as sorting the points
along one axis and sweeping, accumulating non-overlapping rectangular
strips while skipping points dominated by previously processed points. -/
def hv2d (pts : List Point) (r : Point) : ℚ :=
  hv2dSweep (coord r 0) (coord r 1) (List.insertionSort lexLe pts) (coord r 1)

/-- The candidate set built by the first loop of `wfg::limitset` (wfg.cpp
lines 121-124): for every index `j` past `p_idx`, the componentwise
maximum of `points[j]` and `points[p_idx]` over the first `s` coordinates. -/
def limitCandidates (s : ℕ) (pts : List Point) (p_idx : ℕ) : List Point :=
  (pts.drop (p_idx + 1)).map
    (fun q => (List.range s).map (fun k => max (coord q k) (coord (pts.getD p_idx default) k)))

/-- One step of `wfg::limitset`'s filtering (wfg.cpp lines 127-162): the new
candidate `c` is dropped if some kept point strictly dominates it;
otherwise every kept point that `c` dominates or equals is removed and `c`
is appended. -/
def limitStep (s : ℕ) (kept : List Point) (c : Point) : List Point :=
  if kept.any (fun q => dom_cmp c q s = DomRel.b_dom_a) then kept
  else (kept.filter
      (fun q => ¬(dom_cmp c q s = DomRel.a_dom_b ∨ dom_cmp c q s = DomRel.ab_equal))) ++ [c]

/-- Embedding of `wfg::limitset` (wfg.cpp lines 114-166): the list of points
left in the frame at the current recursion level; the recorded
`m_frames_size` entry is the length of this list. -/
def limitset (s : ℕ) (pts : List Point) (p_idx : ℕ) : List Point :=
  (limitCandidates s pts p_idx).foldl (limitStep s) []

example : limitset 2 [[1,1],[2,2],[3,3]] 0 = [[2,2]] := by decide
example : limitset 2 [[1,1],[2,2],[3,3]] 2 = [] := by decide
example : limitset 0 [[1,1],[2,2],[3,3],[4,4]] 0 = [[]] := by decide

/-- Core of `wfg::exclusive_hv` (wfg.cpp lines 221-244), parametrised by the
continuation `k` standing for the recursive `compute_hv`: limit the set
past `p_idx`, then subtract from the point's own volume the volume of the
limited set (directly for a single limited point, recursively through `k`
for more, nothing for an empty limited set).  The frame filled at the
recursion level is the value of `limitset`; the recorded frame size is its
length.  The slice cursor `s` is the member value at entry; the second
result component is the member value at exit. -/
def exclusiveWith (k : ℕ → ℕ → Point → List Point → Option (ℚ × ℕ))
    (s stop : ℕ) (r : Point) (pts : List Point) (p_idx : ℕ) : Option (ℚ × ℕ) :=
  let limited := limitset s pts p_idx
  let H := volume_between (pts.getD p_idx default) r s
  if limited.length = 1 then
    some (H - volume_between (limited.getD 0 default) r s, s)
  else if 1 < limited.length then
    match k s stop r limited with
    | none => none
    | some (h, s1) => some (H - h, s1)
  else some (H, s)

/-- The accumulation loop of `wfg::compute_hv` (wfg.cpp lines 211-215),
parametrised by the continuation `k` standing for the recursive
`compute_hv`: for each point index, add the absolute value of the product
of the coordinate difference at the current slice with the point's
exclusive hypervolume.  The slice cursor is threaded through the
iterations, mirroring the engine-held member. -/
def hvLoopWith (k : ℕ → ℕ → Point → List Point → Option (ℚ × ℕ))
    (stop : ℕ) (r : Point) (pts : List Point) : List ℕ → ℚ → ℕ → Option (ℚ × ℕ)
  | [], H, s => some (H, s)
  | i :: rest, H, s =>
    match exclusiveWith k s stop r pts i with
    | none => none
    | some (e, s1) =>
      hvLoopWith k stop r pts rest
        (H + |(coord (pts.getD i default) s - coord r s) * e|) s1

/-- Embedding of `wfg::compute_hv` (wfg.cpp lines 169-218).  The mutable
member `m_current_slice` is threaded explicitly: `s` is its value at entry
and the second component of the result is its value at exit.  The first
argument is fuel (the C++ recursion depth is bounded by the dimension);
fuel exhaustion yields `none`.  When the active slice has reached the stop
dimension the code delegates: to `hv2d` when the stop dimension is 2, and
otherwise to a fresh hypervolume dispatcher on the truncated slice, which
is modelled from the spec (section 4.4: dimensionality 2 uses the 2-D
specialisation, otherwise the WFG engine — whose default stop dimension is
2) because the dispatcher class is not under src/. -/
def compute_hv : ℕ → ℕ → ℕ → Point → List Point → Option (ℚ × ℕ)
  | 0, _, _, _, _ => none
  | fuel + 1, s, stop, r, pts =>
    if pts.length = 1 then
      some (volume_between (pts.getD 0 default) r s, s)
    else if pts.length = 2 then
      some (volume_between (pts.getD 0 default) r s + volume_between (pts.getD 1 default) r s -
        ((List.range s).map
          (fun i => coord r i - max (coord (pts.getD 0 default) i) (coord (pts.getD 1 default) i))).prod,
        s)
    else if s = stop then
      if stop = 2 then some (hv2d pts r, s)
      else compute_hv fuel s 2 r pts
    else
      match hvLoopWith (fun a b c d => compute_hv fuel a b c d) stop r
          (List.insertionSort (wfgOrder s) pts) (List.range pts.length) 0 (s - 1) with
      | none => none
      | some (H, s1) => some (H, s1 + 1)

/-- Embedding of `wfg::exclusive_hv` at a given fuel: the exclusive step with
the recursive `compute_hv` as continuation. -/
def exclusive_hv (fuel : ℕ) (s stop : ℕ) (r : Point) (pts : List Point) (p_idx : ℕ) :
    Option (ℚ × ℕ) :=
  exclusiveWith (fun a b c d => compute_hv fuel a b c d) s stop r pts p_idx

/-- The accumulation loop of `wfg::compute_hv` at a given fuel. -/
def hvLoop (fuel : ℕ) (stop : ℕ) (r : Point) (pts : List Point)
    (idxs : List ℕ) (H : ℚ) (s : ℕ) : Option (ℚ × ℕ) :=
  hvLoopWith (fun a b c d => compute_hv fuel a b c d) stop r pts idxs H s

/-- Embedding of `wfg::compute` (wfg.cpp lines 66-111): copy the reference
point and the input points into the engine's own buffers (lines 71-74 and
82-90), set the slice cursor to the full dimensionality (line 94) and run
`compute_hv` on frame 0.  The fuel `D + 2` covers the recursion depth,
which the code bounds by the dimension (line 77). -/
def wfg_compute (stop : ℕ) (pts : List Point) (r : Point) : Option ℚ :=
  let maxDim := (r : List ℚ).length
  let refpoint : Point := (List.range maxDim).map (fun d => coord r d)
  let frame0 : List Point := pts.map (fun p => (List.range maxDim).map (fun d => coord p d))
  (compute_hv (maxDim + 2) maxDim stop refpoint frame0).map Prod.fst

example : wfg_compute 2 [[1,1],[2,(1:ℚ)/2]] [3,3] = some (9/2) := by with_unfolding_all decide
example : wfg_compute 2 [[1,1,1]] [2,2,2] = some 1 := by with_unfolding_all decide
example : wfg_compute 2 [] [3,3] = some 0 := by with_unfolding_all decide
example : wfg_compute 3 [[1,1,1],[2,2,2],[0,3,1],[3,0,2]] [4,4,4] =
    wfg_compute 3 [[3,0,2],[2,2,2],[1,1,1],[0,3,1]] [4,4,4] := by with_unfolding_all decide

/-- Result of one `wfg::compute` call together with the caller-supplied data
as the code leaves it: every write in `wfg::compute` and its callees
targets the freshly allocated engine buffers `m_refpoint` (wfg.cpp line
71) and `m_frames` (lines 78-89, 224-228); the caller's vectors are only
read (lines 73, 86), so the call leaves them untouched. -/
structure ComputeCall where
  hv : Option ℚ
  caller_points : List Point
  caller_ref : Point

/-- Embedding of `wfg::compute` keeping track of the caller-owned data: the
engine copies the reference point and the points into its own buffers and
the whole computation, sorting and limiting included, acts on those
copies. -/
def wfg_compute_call (stop : ℕ) (pts : List Point) (r : Point) : ComputeCall :=
  let maxDim := (r : List ℚ).length
  let refpoint : Point := (List.range maxDim).map (fun d => coord r d)
  let frame0 : List Point := pts.map (fun p => (List.range maxDim).map (fun d => coord p d))
  { hv := (compute_hv (maxDim + 2) maxDim stop refpoint frame0).map Prod.fst,
    caller_points := pts,
    caller_ref := r }

/-- Modelled from the spec: `base::assert_minimisation` of the hv_algorithm
base class is not under src/; sections 2 and 7 of the spec require every
input point to be componentwise no worse (no greater, minimisation) than
the reference point, raising a dominance-violation error otherwise. -/
def assert_minimisation (pts : List Point) (r : Point) : Except String Unit :=
  if ∀ p ∈ pts, sliceLe p r (r : List ℚ).length then .ok ()
  else .error "point does not strictly dominate the reference point"

/-- Embedding of `wfg::verify_before_compute` (wfg.cpp lines 255-258): it
delegates to `base::assert_minimisation`. -/
def verify_before_compute (pts : List Point) (r : Point) : Except String Unit :=
  assert_minimisation pts r

/-- Modelled from the spec: the hypervolume front-end class is not under
src/; sections 4.4 and 7 of the spec place the validation of the
reference point at the boundary, before any recursive work, and forward
to the algorithm's `compute` only when it passes. -/
def hypervolume_compute (stop : ℕ) (pts : List Point) (r : Point) : Except String ℚ :=
  match verify_before_compute pts r with
  | .error e => .error e
  | .ok _ =>
    match wfg_compute stop pts r with
    | some v => .ok v
    | none => .error "fuel exhausted"

/-- State of the problem base class (src_new/problem/base.h) relevant to the
bounds invariant: the stored lower and upper bounds and the size of the
integer part of the problem. -/
structure ProblemBase where
  lb : List ℚ
  ub : List ℚ
  i_dim : ℕ

/-- The bounds invariant of the problem base class: lower and upper bounds
have equal non-zero length and each lower bound is at most the
corresponding upper bound. -/
def BoundsInvariant (p : ProblemBase) : Prop :=
  p.lb.length = p.ub.length ∧ p.lb.length ≠ 0 ∧
    ∀ i, i < p.lb.length → p.lb.getD i 0 ≤ p.ub.getD i 0

instance (p : ProblemBase) : Decidable (BoundsInvariant p) :=
  inferInstanceAs (Decidable (_ ∧ _ ∧ ∀ i, i < p.lb.length → p.lb.getD i 0 ≤ p.ub.getD i 0))

/-- Embedding of `problem::base::verify_bounds` (base.h lines 323-331): walk
the two ranges in lockstep while both have elements and fail on the first
position where the lower bound exceeds the upper bound. -/
def pverify_bounds (lb ub : List ℚ) : Except String Unit :=
  if (lb.zip ub).any (fun q => q.2 < q.1) then
    .error "lower bound is greater than upper bound"
  else .ok ()

/-- Clamping and rounding applied to an integer-part bound, modelled from the
spec (base.cpp is not under src/; the base.h class documentation, lines
70-78, states that integer-part bounds outside [-32767,32767] are set to
the extremes of the allowed range and rounded to the nearest integer). -/
def clampRound (x : ℚ) : ℚ := ((round (max (-32767 : ℚ) (min (32767 : ℚ) x)) : ℤ) : ℚ)

/-- Modelled from the spec: `problem::base::normalise_bounds` is declared in
base.h (line 309) but defined in base.cpp, which is not under src/; the
class documentation (base.h lines 70-78) specifies that the bounds of the
integer part of the problem (its trailing `i_dim` coordinates) are forced
into the allowed range and rounded, while continuous bounds may span the
whole range of values. -/
def normalise_bounds (p : ProblemBase) : ProblemBase :=
  { p with
    lb := p.lb.mapIdx (fun i x => if p.lb.length - p.i_dim ≤ i then clampRound x else x),
    ub := p.ub.mapIdx (fun i x => if p.lb.length - p.i_dim ≤ i then clampRound x else x) }

/-- Embedding of `problem::base::construct_from_iterators` (base.h lines
311-320): append the two ranges to the empty stored bounds, fail on
null or inconsistent sizes, then verify the bounds pairwise. -/
def construct_from_iterators (lb ub : List ℚ) : Except String (List ℚ × List ℚ) :=
  if lb.length ≠ ub.length ∨ lb.length = 0 then
    .error "null or inconsistent dimension(s) for upper/lower bounds while constructing problem"
  else
    match pverify_bounds lb ub with
    | .error e => .error e
    | .ok _ => .ok (lb, ub)

/-- Embedding of the problem base constructor (base.h lines 147-169, with the
`boost::numeric_cast` conversions of the member-initialiser list, which
fail for negative inputs, performed first): check the fitness and
constraint dimensions, build the bounds, check the integer dimension and
normalise. -/
def problem_construct (lb ub : List ℚ) (ni nf nc nic : ℤ) : Except String ProblemBase :=
  if ni < 0 ∨ nf < 0 ∨ nc < 0 ∨ nic < 0 then .error "bad numeric cast"
  else if nf = 0 then .error "fitness dimension must be strictly positive"
  else if nc < nic then
    .error "inequality constraints dimension must not be greater than global constraints dimension"
  else
    match construct_from_iterators lb ub with
    | .error e => .error e
    | .ok (l, u) =>
      if (l.length : ℤ) < ni then
        .error "integer dimension must not be greater than global dimension"
      else .ok (normalise_bounds { lb := l, ub := u, i_dim := ni.toNat })

/-- Embedding of `problem::base::set_bounds` (base.h lines 180-195): check
the two range sizes against each other and against the stored dimension,
verify the new bounds pairwise, copy them in and normalise. -/
def set_bounds (p : ProblemBase) (lb ub : List ℚ) : Except String ProblemBase :=
  if lb.length ≠ ub.length ∨ lb.length ≠ p.lb.length then
    .error "invalid or inconsistent bounds dimensions in set_bounds()"
  else
    match pverify_bounds lb ub with
    | .error e => .error e
    | .ok _ => .ok (normalise_bounds { p with lb := lb, ub := ub })

/-- Embedding of `problem::base::set_lb` (base.h lines 221-231): check the
range size against the stored dimension, verify the new lower bounds
against the stored upper bounds, copy and normalise. -/
def set_lb (p : ProblemBase) (lb : List ℚ) : Except String ProblemBase :=
  if lb.length ≠ p.lb.length then .error "invalid bounds dimension in set_lb()"
  else
    match pverify_bounds lb p.ub with
    | .error e => .error e
    | .ok _ => .ok (normalise_bounds { p with lb := lb })

/-- Embedding of `problem::base::set_ub` (base.h lines 256-266): check the
range size against the stored dimension, verify the stored lower bounds
against the new upper bounds, copy and normalise. -/
def set_ub (p : ProblemBase) (ub : List ℚ) : Except String ProblemBase :=
  if ub.length ≠ p.lb.length then .error "invalid bounds dimension in set_ub()"
  else
    match pverify_bounds p.lb ub with
    | .error e => .error e
    | .ok _ => .ok (normalise_bounds { p with ub := ub })

lemma sliceEq_refl (a : Point) (k : ℕ) : sliceEq a a k := fun _ _ => rfl

lemma sliceLe_refl (a : Point) (k : ℕ) : sliceLe a a k := fun _ _ => le_rfl

lemma sliceLe_trans {a b c : Point} {k : ℕ} (h1 : sliceLe a b k) (h2 : sliceLe b c k) :
    sliceLe a c k := fun i hi => le_trans (h1 i hi) (h2 i hi)

lemma sliceEq_symm {a b : Point} {k : ℕ} (h : sliceEq a b k) : sliceEq b a k :=
  fun i hi => (h i hi).symm

lemma sliceLe_antisymm {a b : Point} {k : ℕ} (h1 : sliceLe a b k) (h2 : sliceLe b a k) :
    sliceEq a b k := fun i hi => le_antisymm (h1 i hi) (h2 i hi)

lemma sliceEq_of_eq {a b : Point} {k : ℕ} (h : a = b) : sliceEq a b k := h ▸ sliceEq_refl a k

lemma sliceEq_eq_of_length {a b : Point} {k : ℕ}
    (ha : (a : List ℚ).length = k) (hb : (b : List ℚ).length = k) (h : sliceEq a b k) :
    a = b := by
  apply List.ext_getElem (ha.trans hb.symm)
  intro i h1 h2
  have hik : i < k := ha ▸ h1
  have := h i hik
  rwa [coord, coord, List.getD_eq_getElem _ _ h1, List.getD_eq_getElem _ _ h2] at this

lemma dom_cmp_equal_iff {a b : Point} {k : ℕ} : dom_cmp a b k = .ab_equal ↔ sliceEq a b k := by
  unfold dom_cmp
  split_ifs with h1 h2 h3 <;> simp_all

lemma dom_cmp_a_dom_iff {a b : Point} {k : ℕ} :
    dom_cmp a b k = .a_dom_b ↔ (sliceLe a b k ∧ ¬sliceEq a b k) := by
  unfold dom_cmp
  split_ifs with h1 h2 h3 <;> simp_all

lemma dom_cmp_b_dom_iff {a b : Point} {k : ℕ} :
    dom_cmp a b k = .b_dom_a ↔ (sliceLe b a k ∧ ¬sliceEq a b k) := by
  unfold dom_cmp
  split_ifs with h1 h2 h3
  · simp only [reduceCtorEq, false_iff]
    exact fun h => h.2 h1
  · simp only [reduceCtorEq, false_iff]
    exact fun h => h1 (sliceLe_antisymm h2 h.1)
  · simp only [true_iff]
    exact ⟨h3, h1⟩
  · simp only [reduceCtorEq, false_iff]
    exact fun h => h3 h.1

lemma strict_of_le_strict {q d x : Point} {k : ℕ} (h1 : sliceLe q d k)
    (h2 : sliceLe d x k) (h3 : ¬sliceEq d x k) : sliceLe q x k ∧ ¬sliceEq q x k := by
  refine ⟨sliceLe_trans h1 h2, fun heq => h3 (fun i hi => ?_)⟩
  have hq : coord q i = coord x i := heq i hi
  exact le_antisymm (h2 i hi) (hq ▸ h1 i hi)

lemma dom_cmp_zero (a b : Point) : dom_cmp a b 0 = .ab_equal :=
  dom_cmp_equal_iff.mpr (fun i hi => absurd hi (Nat.not_lt_zero i))

lemma hv2d_nil (r : Point) : hv2d [] r = 0 := rfl

lemma compute_hv_nil (f s stop : ℕ) (r : Point) :
    (compute_hv (f + 2) s stop r []).map Prod.fst = some 0 := by
  by_cases hs : s = stop
  · by_cases h2 : stop = 2
    · simp [compute_hv, hs, h2, hv2d_nil]
    · subst hs
      simp [compute_hv, h2, hvLoopWith]
  · simp [compute_hv, hs, hvLoopWith]

/-- C7: for every reference point and every configured stop dimension, a
compute call on the empty point set returns hypervolume 0, and the
validated boundary entry returns it without raising any error. -/
theorem wfg_c7_empty_set (stop : ℕ) (r : Point) :
    wfg_compute stop [] r = some 0 ∧ hypervolume_compute stop [] r = .ok 0 := by
  have h1 : wfg_compute stop [] r = some 0 := by
    unfold wfg_compute
    simpa using compute_hv_nil ((r : List ℚ).length) ((r : List ℚ).length) stop
      ((List.range (r : List ℚ).length).map (fun d => coord r d))
  refine ⟨h1, ?_⟩
  unfold hypervolume_compute verify_before_compute assert_minimisation
  simp [h1]

/-- C4: the two-point base case of `compute_hv` returns the sum of the two
individual volumes against the reference minus the volume of the pairwise
intersection box (product over the active slice of the reference
coordinate minus the componentwise maximum); in particular the compute
call on points (1,1) and (2,1/2) with reference (3,3) returns exactly
9/2 = 4.5. -/
theorem wfg_c4_two_point_case :
    (∀ (fuel s stop : ℕ) (r p q : Point),
      compute_hv (fuel + 1) s stop r [p, q] =
        some (volume_between p r s + volume_between q r s -
          ((List.range s).map (fun i => coord r i - max (coord p i) (coord q i))).prod, s)) ∧
    wfg_compute 2 [[1, 1], [2, (1 : ℚ)/2]] [3, 3] = some (9/2) := by
  constructor
  · intro fuel s stop r p q
    simp [compute_hv]
  · with_unfolding_all decide

/-- C9: a compute call leaves the caller-supplied point vectors and
reference point unchanged: the embedding mirrors the code's writes, all
of which target the engine's freshly allocated reference copy and frame
buffers, and the hypervolume is computed from those copies. -/
theorem wfg_c9_caller_data_unchanged (stop : ℕ) (pts : List Point) (r : Point) :
    (wfg_compute_call stop pts r).caller_points = pts ∧
    (wfg_compute_call stop pts r).caller_ref = r ∧
    (wfg_compute_call stop pts r).hv = wfg_compute stop pts r :=
  ⟨rfl, rfl, rfl⟩

/-- C1: the value returned by `exclusive_hv` is the volume of the pivot point
against the reference minus: nothing when the limited set at the
recursion level is empty, the volume of the single limited point when it
has exactly one point, and the value of the recursive `compute_hv` on the
limited set when it has more than one point. -/
theorem wfg_c1_exclusive_hv_structure (fuel s stop : ℕ) (r : Point) (pts : List Point)
    (p_idx : ℕ) :
    ((limitset s pts p_idx).length = 0 →
      exclusive_hv fuel s stop r pts p_idx =
        some (volume_between (pts.getD p_idx default) r s, s)) ∧
    ((limitset s pts p_idx).length = 1 →
      exclusive_hv fuel s stop r pts p_idx =
        some (volume_between (pts.getD p_idx default) r s -
          volume_between ((limitset s pts p_idx).getD 0 default) r s, s)) ∧
    (∀ (h : ℚ) (s1 : ℕ), 1 < (limitset s pts p_idx).length →
      compute_hv fuel s stop r (limitset s pts p_idx) = some (h, s1) →
      exclusive_hv fuel s stop r pts p_idx =
        some (volume_between (pts.getD p_idx default) r s - h, s1)) := by
  refine ⟨fun h0 => ?_, fun h1 => ?_, fun h s1 hgt hc => ?_⟩
  · unfold exclusive_hv exclusiveWith
    simp [h0]
  · unfold exclusive_hv exclusiveWith
    simp [h1]
  · unfold exclusive_hv exclusiveWith
    have hne : (limitset s pts p_idx).length ≠ 1 := by omega
    simp [hne, hgt, hc]

/-- Witness for C1: concrete instantiations of the three cases (empty
limited set, singleton limited set, recursive case). -/
theorem wfg_c1_witness :
    exclusive_hv 3 2 5 [3, 3] [[1, 1], [2, 2], [0, 0]] 2 =
      some (volume_between ([[1, 1], [2, 2], ([0, 0] : Point)].getD 2 default) [3, 3] 2, 2) ∧
    exclusive_hv 3 2 5 [3, 3] [[1, 1], [2, 2], [3, 3]] 0 =
      some (volume_between ([[1, 1], [2, 2], ([3, 3] : Point)].getD 0 default) [3, 3] 2 -
        volume_between ((limitset 2 [[1, 1], [2, 2], [3, 3]] 0).getD 0 default) [3, 3] 2, 2) ∧
    exclusive_hv 1 2 7 [3, 3] [[0, 0], [1, 2], [2, 1]] 0 =
      some (volume_between ([[0, 0], [1, 2], ([2, 1] : Point)].getD 0 default) [3, 3] 2 - 3, 2) :=
  ⟨(wfg_c1_exclusive_hv_structure 3 2 5 [3, 3] [[1, 1], [2, 2], [0, 0]] 2).1 (by decide),
   (wfg_c1_exclusive_hv_structure 3 2 5 [3, 3] [[1, 1], [2, 2], [3, 3]] 0).2.1 (by decide),
   (wfg_c1_exclusive_hv_structure 1 2 7 [3, 3] [[0, 0], [1, 2], [2, 1]] 0).2.2 3 2 (by decide)
     (by with_unfolding_all decide)⟩

lemma limitStep_zero (kept : List Point) (c : Point) : limitStep 0 kept c = [c] := by
  unfold limitStep
  have hall : ∀ q : Point, dom_cmp c q 0 = .ab_equal := fun q => dom_cmp_zero c q
  rw [if_neg, List.filter_eq_nil_iff.mpr, List.nil_append]
  · intro q _
    simp [hall q]
  · simp only [List.any_eq_true, not_exists, not_and]
    intro q _
    simp [hall q]

lemma limitset_zero_length (pts : List Point) (p_idx : ℕ) :
    (limitset 0 pts p_idx).length ≤ 1 := by
  unfold limitset
  generalize limitCandidates 0 pts p_idx = cands
  have : ∀ (cs : List Point) (kept : List Point), kept.length ≤ 1 →
      (cs.foldl (limitStep 0) kept).length ≤ 1 := by
    intro cs
    induction cs with
    | nil => intro kept h; exact h
    | cons c rest ih =>
      intro kept _
      simp only [List.foldl_cons]
      exact ih _ (by simp [limitStep_zero])
  exact this cands [] (by decide)

lemma exclusive_hv_preserves (f : ℕ)
    (IH : ∀ (s stop : ℕ) (r : Point) (pts : List Point) (h : ℚ) (s1 : ℕ),
      compute_hv f s stop r pts = some (h, s1) → 1 ≤ s → s1 = s) :
    ∀ (s stop : ℕ) (r : Point) (pts : List Point) (i : ℕ) (e : ℚ) (s1 : ℕ),
      exclusive_hv f s stop r pts i = some (e, s1) → s1 = s := by
  intro s stop r pts i e s1 hx
  unfold exclusive_hv exclusiveWith at hx
  by_cases h1 : (limitset s pts i).length = 1
  · rw [if_pos h1] at hx
    simp only [Option.some_inj, Prod.mk.injEq] at hx
    exact hx.2.symm
  · by_cases hgt : 1 < (limitset s pts i).length
    · rw [if_neg h1, if_pos hgt] at hx
      simp only [] at hx
      match hc : compute_hv f s stop r (limitset s pts i) with
      | none => rw [hc] at hx; exact absurd hx (by simp)
      | some (h2, s2) =>
        rw [hc] at hx
        simp only [Option.some_inj, Prod.mk.injEq] at hx
        rcases hx with ⟨_, rfl⟩
        rcases Nat.eq_zero_or_pos s with hs0 | hs1
        · subst hs0
          have := limitset_zero_length pts i
          omega
        · exact IH _ _ _ _ _ _ hc hs1
    · rw [if_neg h1, if_neg hgt] at hx
      simp only [Option.some_inj, Prod.mk.injEq] at hx
      exact hx.2.symm

lemma hvLoop_preserves (f : ℕ)
    (IH : ∀ (s stop : ℕ) (r : Point) (pts : List Point) (h : ℚ) (s1 : ℕ),
      compute_hv f s stop r pts = some (h, s1) → 1 ≤ s → s1 = s) :
    ∀ (idxs : List ℕ) (stop : ℕ) (r : Point) (pts : List Point) (H : ℚ) (s : ℕ)
      (h : ℚ) (s1 : ℕ),
      hvLoop f stop r pts idxs H s = some (h, s1) → s1 = s := by
  intro idxs
  induction idxs with
  | nil =>
    intro stop r pts H s h s1 hl
    unfold hvLoop hvLoopWith at hl
    simp only [Option.some_inj, Prod.mk.injEq] at hl
    exact hl.2.symm
  | cons i rest ih =>
    intro stop r pts H s h s1 hl
    unfold hvLoop hvLoopWith at hl
    match hx : exclusiveWith (fun a b c d => compute_hv f a b c d) s stop r pts i with
    | none => rw [hx] at hl; exact absurd hl (by simp)
    | some (e, s2) =>
      rw [hx] at hl
      have hs2 : s2 = s :=
        exclusive_hv_preserves f IH s stop r pts i e s2 hx
      rw [hs2] at hl
      exact ih stop r pts _ s h s1 (by unfold hvLoop; exact hl)

lemma compute_hv_preserves :
    ∀ (f s stop : ℕ) (r : Point) (pts : List Point) (h : ℚ) (s1 : ℕ),
      compute_hv f s stop r pts = some (h, s1) → 1 ≤ s → s1 = s := by
  intro f
  induction f with
  | zero =>
    intro s stop r pts h s1 hc
    exact absurd hc (by simp [compute_hv])
  | succ f ih =>
    intro s stop r pts h s1 hc hs
    unfold compute_hv at hc
    by_cases hn1 : pts.length = 1
    · rw [if_pos hn1] at hc
      simp only [Option.some_inj, Prod.mk.injEq] at hc
      exact hc.2.symm
    · rw [if_neg hn1] at hc
      by_cases hn2 : pts.length = 2
      · rw [if_pos hn2] at hc
        simp only [Option.some_inj, Prod.mk.injEq] at hc
        exact hc.2.symm
      · rw [if_neg hn2] at hc
        by_cases hst : s = stop
        · rw [if_pos hst] at hc
          by_cases h2 : stop = 2
          · rw [if_pos h2] at hc
            simp only [Option.some_inj, Prod.mk.injEq] at hc
            exact hc.2.symm
          · rw [if_neg h2] at hc
            exact ih s 2 r pts h s1 hc hs
        · rw [if_neg hst] at hc
          match hl : hvLoop f stop r (List.insertionSort (wfgOrder s) pts)
              (List.range pts.length) 0 (s - 1) with
          | none =>
            unfold hvLoop at hl
            rw [hl] at hc
            exact absurd hc (by simp)
          | some (H, s2) =>
            unfold hvLoop at hl
            rw [hl] at hc
            simp only [Option.some_inj, Prod.mk.injEq] at hc
            have := hvLoop_preserves f ih (List.range pts.length) stop r
              (List.insertionSort (wfgOrder s) pts) 0 (s - 1) H s2 (by unfold hvLoop; exact hl)
            omega

/-- C5: within a compute call the slice cursor is restored on return from
every `compute_hv` invocation: whenever `compute_hv` returns a value, the
cursor value it leaves in the engine member equals the cursor value at
entry, so sibling recursive calls at the same level observe the same
cursor value. -/
theorem wfg_c5_slice_cursor_restored (fuel s stop : ℕ) (r : Point) (pts : List Point)
    (h : ℚ) (s1 : ℕ) (hrun : compute_hv fuel s stop r pts = some (h, s1)) (hs : 1 ≤ s) :
    s1 = s :=
  compute_hv_preserves fuel s stop r pts h s1 hrun hs

/-- Witness for C5: a three-point three-dimensional run whose recursive step
decrements the cursor to 2 and restores it to 3 on return. -/
theorem wfg_c5_witness :
    compute_hv 5 3 2 [4, 4, 4] [[1, 1, 1], [2, 2, 2], [3, 3, 3]] = some (27, 3) ∧ (3 : ℕ) = 3 :=
  ⟨by with_unfolding_all decide,
   wfg_c5_slice_cursor_restored 5 3 2 [4, 4, 4] [[1, 1, 1], [2, 2, 2], [3, 3, 3]] 27 3
     (by with_unfolding_all decide) (by decide)⟩

/-- Counterexample for C3: on the reachable compute run with reference
(0,0,10) and points (1,1,5), (2,2,4), (3,3,3) (already in sorted order),
the code returns 108 because wfg.cpp line 214 applies `fabs` to the whole
product, while the claim's formula — absolute value of the coordinate
difference only, multiplied by the exclusive hypervolume — sums to 18. -/
theorem wfg_c3_counterexample :
    compute_hv 5 3 2 [0, 0, 10] [[1, 1, 5], [2, 2, 4], [3, 3, 3]] = some (108, 3) ∧
    ((List.range 3).map (fun i =>
      |coord ((List.insertionSort (wfgOrder 3)
          [[1, 1, 5], [2, 2, 4], ([3, 3, 3] : Point)]).getD i default) 2 -
        coord [0, 0, 10] 2| *
        ((exclusive_hv 4 2 2 [0, 0, 10]
          (List.insertionSort (wfgOrder 3) [[1, 1, 5], [2, 2, 4], [3, 3, 3]]) i).getD
            (0, 0)).1)).sum = 18 ∧
    (108 : ℚ) ≠ 18 := by
  refine ⟨by with_unfolding_all decide, by with_unfolding_all decide, by norm_num⟩

lemma hvLoop_sum (f stop : ℕ) (r : Point) (pts : List Point) (s0 : ℕ) (E : ℕ → ℚ) :
    ∀ (idxs : List ℕ) (H : ℚ),
      (∀ i ∈ idxs, exclusive_hv f s0 stop r pts i = some (E i, s0)) →
      hvLoop f stop r pts idxs H s0 =
        some (H + (idxs.map
          (fun i => |(coord (pts.getD i default) s0 - coord r s0) * E i|)).sum, s0) := by
  intro idxs
  induction idxs with
  | nil =>
    intro H _
    unfold hvLoop hvLoopWith
    simp
  | cons i rest ih =>
    intro H hE
    have hx := hE i (by simp)
    unfold exclusive_hv at hx
    have hrest := ih (H + |(coord (pts.getD i default) s0 - coord r s0) * E i|)
      (fun j hj => hE j (by simp [hj]))
    unfold hvLoop at hrest
    unfold hvLoop hvLoopWith
    rw [hx]
    show hvLoopWith (fun a b c d => compute_hv f a b c d) stop r pts rest
        (H + |(coord (pts.getD i default) s0 - coord r s0) * E i|) s0 =
      some (H + (List.map
        (fun i => |(coord (pts.getD i default) s0 - coord r s0) * E i|) (i :: rest)).sum, s0)
    rw [hrest]
    simp [add_assoc]

/-- C3 amended: in the recursive step of `compute_hv` (more than two points
and active slice not at the stop dimension), after sorting and after
decrementing the active slice, the returned total is the sum over all
point indices of the absolute value of the entire product of the
coordinate difference at the decremented slice with the point's exclusive
hypervolume (wfg.cpp line 214 applies `fabs` to the whole product, not to
the coordinate difference alone), and the slice is restored on return. -/
theorem wfg_c3_sum_of_abs_products (f s stop : ℕ) (r : Point) (pts : List Point)
    (E : ℕ → ℚ) (hn : 2 < pts.length) (hstop : s ≠ stop) (hs : 1 ≤ s)
    (hE : ∀ i ∈ List.range pts.length,
      exclusive_hv f (s - 1) stop r (List.insertionSort (wfgOrder s) pts) i =
        some (E i, s - 1)) :
    compute_hv (f + 1) s stop r pts =
      some (((List.range pts.length).map
        (fun i => |(coord ((List.insertionSort (wfgOrder s) pts).getD i default) (s - 1) -
          coord r (s - 1)) * E i|)).sum, s) := by
  have hn1 : pts.length ≠ 1 := by omega
  have hn2 : pts.length ≠ 2 := by omega
  unfold compute_hv
  rw [if_neg hn1, if_neg hn2, if_neg hstop]
  have hsum := hvLoop_sum f stop r (List.insertionSort (wfgOrder s) pts) (s - 1) E
    (List.range pts.length) 0 hE
  unfold hvLoop at hsum
  rw [hsum]
  simp only [zero_add]
  rw [Nat.sub_add_cancel hs]

/-- Witness for the amended C3: the counterexample run evaluated through the
amended formula, with the three exclusive hypervolumes -3, -5 and 9. -/
theorem wfg_c3_sum_witness :
    compute_hv 5 3 2 [0, 0, 10] [[1, 1, 5], [2, 2, 4], [3, 3, 3]] =
      some (((List.range ([[1, 1, 5], [2, 2, 4], ([3, 3, 3] : Point)].length)).map
        (fun i => |(coord ((List.insertionSort (wfgOrder 3)
            [[1, 1, 5], [2, 2, 4], [3, 3, 3]]).getD i default) (3 - 1) -
          coord [0, 0, 10] (3 - 1)) * (fun j => ([-3, -5, (9 : ℚ)].getD j 0)) i|)).sum, 3) :=
  wfg_c3_sum_of_abs_products 4 3 2 [0, 0, 10] [[1, 1, 5], [2, 2, 4], [3, 3, 3]]
    (fun j => ([-3, -5, (9 : ℚ)].getD j 0)) (by decide) (by decide) (by decide)
    (by with_unfolding_all decide)

/-- No point of `P` strictly dominates `x` on the first `s` coordinates. -/
def NoDomIn (s : ℕ) (P : List Point) (x : Point) : Prop :=
  ∀ d ∈ P, ¬(sliceLe d x s ∧ ¬sliceEq d x s)

lemma dom_or_eq_iff_le {c q : Point} {s : ℕ} :
    (dom_cmp c q s = DomRel.a_dom_b ∨ dom_cmp c q s = DomRel.ab_equal) ↔ sliceLe c q s := by
  rw [dom_cmp_a_dom_iff, dom_cmp_equal_iff]
  constructor
  · rintro (⟨h, _⟩ | h)
    · exact h
    · exact fun i hi => (h i hi).le
  · intro h
    by_cases he : sliceEq c q s
    · exact Or.inr he
    · exact Or.inl ⟨h, he⟩

lemma limitCandidates_length (s : ℕ) (pts : List Point) (p_idx : ℕ) :
    ∀ x ∈ limitCandidates s pts p_idx, (x : List ℚ).length = s := by
  intro x hx
  unfold limitCandidates at hx
  rw [List.mem_map] at hx
  obtain ⟨q, _, rfl⟩ := hx
  simp

lemma limitStep_invariant (s : ℕ) (P kept : List Point) (c : Point)
    (hPlen : ∀ x ∈ P, (x : List ℚ).length = s) (hclen : (c : List ℚ).length = s)
    (hnd : kept.Nodup)
    (hmem : ∀ x, x ∈ kept ↔ (x ∈ P ∧ NoDomIn s P x))
    (hcov : ∀ d ∈ P, ∃ q ∈ kept, sliceLe q d s) :
    (limitStep s kept c).Nodup ∧
    (∀ x, x ∈ limitStep s kept c ↔ (x ∈ P ++ [c] ∧ NoDomIn s (P ++ [c]) x)) ∧
    (∀ d ∈ P ++ [c], ∃ q ∈ limitStep s kept c, sliceLe q d s) := by
  unfold limitStep
  have hcond : ((kept.any fun q => dom_cmp c q s = DomRel.b_dom_a) = true) ↔
      ∃ q ∈ kept, dom_cmp c q s = DomRel.b_dom_a := by
    simp [List.any_eq_true]
  by_cases hany : ∃ q ∈ kept, dom_cmp c q s = DomRel.b_dom_a
  · obtain ⟨q0, hq0k, hq0d⟩ := hany
    rw [dom_cmp_b_dom_iff] at hq0d
    rw [if_pos (hcond.mpr ⟨q0, hq0k, dom_cmp_b_dom_iff.mpr hq0d⟩)]
    have hq0P : q0 ∈ P := ((hmem q0).mp hq0k).1
    have hq0nd : NoDomIn s P q0 := ((hmem q0).mp hq0k).2
    have hq0strict : sliceLe q0 c s ∧ ¬sliceEq q0 c s :=
      ⟨hq0d.1, fun he => hq0d.2 (sliceEq_symm he)⟩
    refine ⟨hnd, fun x => ?_, fun d hd => ?_⟩
    · rw [hmem x]
      constructor
      · rintro ⟨hxP, hx⟩
        refine ⟨List.mem_append_left _ hxP, fun d hd => ?_⟩
        rcases List.mem_append.mp hd with hdP | hdc
        · exact hx d hdP
        · rw [List.mem_singleton.mp hdc]
          rintro ⟨hle, hne⟩
          exact hx q0 hq0P (strict_of_le_strict hq0strict.1 hle hne)
      · rintro ⟨hxPc, hx⟩
        rcases List.mem_append.mp hxPc with hxP | hxc
        · exact ⟨hxP, fun d hd => hx d (List.mem_append_left _ hd)⟩
        · exfalso
          rw [List.mem_singleton.mp hxc] at hx
          exact hx q0 (List.mem_append_left _ hq0P) hq0strict
    · rcases List.mem_append.mp hd with hdP | hdc
      · exact hcov d hdP
      · rw [List.mem_singleton.mp hdc]
        exact ⟨q0, hq0k, hq0d.1⟩
  · rw [if_neg (fun h => hany (hcond.mp h))]
    have hnostrict : ∀ q ∈ kept, ¬(sliceLe q c s ∧ ¬sliceEq c q s) := by
      intro q hq hcontra
      exact hany ⟨q, hq, dom_cmp_b_dom_iff.mpr hcontra⟩
    have hPnostrict : ∀ d ∈ P, ¬(sliceLe d c s ∧ ¬sliceEq d c s) := by
      rintro d hdP ⟨hdle, hdne⟩
      obtain ⟨q, hqk, hqle⟩ := hcov d hdP
      have hstrict := strict_of_le_strict hqle hdle hdne
      exact hnostrict q hqk ⟨hstrict.1, fun he => hstrict.2 (sliceEq_symm he)⟩
    have hmem' : ∀ x, (x ∈ (kept.filter
          (fun q => ¬(dom_cmp c q s = DomRel.a_dom_b ∨ dom_cmp c q s = DomRel.ab_equal))) ++ [c])
        ↔ ((x ∈ kept ∧ ¬sliceLe c x s) ∨ x = c) := by
      intro x
      rw [List.mem_append, List.mem_filter, List.mem_singleton]
      constructor
      · rintro (⟨hk, hf⟩ | hc)
        · left
          refine ⟨hk, fun hle => ?_⟩
          rw [decide_eq_true_eq] at hf
          exact hf (dom_or_eq_iff_le.mpr hle)
        · exact Or.inr hc
      · rintro (⟨hk, hle⟩ | hc)
        · left
          refine ⟨hk, ?_⟩
          rw [decide_eq_true_eq]
          exact fun h => hle (dom_or_eq_iff_le.mp h)
        · exact Or.inr hc
    refine ⟨?_, fun x => ?_, fun d hd => ?_⟩
    · rw [List.nodup_append]
      refine ⟨hnd.filter _, List.nodup_singleton c, fun a ha hb => ?_⟩
      rw [List.mem_singleton.mp (hb)] at ha
      have := (List.mem_filter.mp ha).2
      rw [decide_eq_true_eq] at this
      exact this (dom_or_eq_iff_le.mpr (sliceLe_refl c s))
    · rw [hmem' x]
      constructor
      · rintro (⟨hxk, hxnle⟩ | hxc)
        · obtain ⟨hxP, hx⟩ := (hmem x).mp hxk
          refine ⟨List.mem_append_left _ hxP, fun d hd => ?_⟩
          rcases List.mem_append.mp hd with hdP | hdc
          · exact hx d hdP
          · rw [List.mem_singleton.mp hdc]
            rintro ⟨hle, _⟩
            exact hxnle hle
        · rw [hxc]
          refine ⟨List.mem_append_right _ (List.mem_singleton_self c), fun d hd => ?_⟩
          rcases List.mem_append.mp hd with hdP | hdc
          · exact hPnostrict d hdP
          · rw [List.mem_singleton.mp hdc]
            rintro ⟨_, hne⟩
            exact hne (sliceEq_refl c s)
      · rintro ⟨hxPc, hx⟩
        rcases List.mem_append.mp hxPc with hxP | hxc
        · have hxk : x ∈ kept :=
            (hmem x).mpr ⟨hxP, fun d hd => hx d (List.mem_append_left _ hd)⟩
          by_cases hcx : sliceLe c x s
          · by_cases hce : sliceEq c x s
            · exact Or.inr (sliceEq_eq_of_length hclen (hPlen x hxP) hce).symm
            · exact absurd ⟨hcx, hce⟩ (hx c (List.mem_append_right _ (List.mem_singleton_self c)))
          · exact Or.inl ⟨hxk, hcx⟩
        · exact Or.inr (List.mem_singleton.mp hxc)
    · rcases List.mem_append.mp hd with hdP | hdc
      · obtain ⟨q, hqk, hqle⟩ := hcov d hdP
        by_cases hq : sliceLe c q s
        · exact ⟨c, (hmem' c).mpr (Or.inr rfl), sliceLe_trans hq hqle⟩
        · refine ⟨q, (hmem' q).mpr (Or.inl ⟨hqk, hq⟩), hqle⟩
      · rw [List.mem_singleton.mp hdc]
        exact ⟨c, (hmem' c).mpr (Or.inr rfl), sliceLe_refl c s⟩

lemma limit_fold_invariant (s : ℕ) :
    ∀ (cands P kept : List Point),
      (∀ x ∈ P, (x : List ℚ).length = s) →
      (∀ x ∈ cands, (x : List ℚ).length = s) →
      kept.Nodup →
      (∀ x, x ∈ kept ↔ (x ∈ P ∧ NoDomIn s P x)) →
      (∀ d ∈ P, ∃ q ∈ kept, sliceLe q d s) →
      (cands.foldl (limitStep s) kept).Nodup ∧
      (∀ x, x ∈ cands.foldl (limitStep s) kept ↔
        (x ∈ P ++ cands ∧ NoDomIn s (P ++ cands) x)) ∧
      (∀ d ∈ P ++ cands, ∃ q ∈ cands.foldl (limitStep s) kept, sliceLe q d s) := by
  intro cands
  induction cands with
  | nil =>
    intro P kept _ _ h3 h4 h5
    simpa using ⟨h3, h4, h5⟩
  | cons c rest ih =>
    intro P kept hPlen hclen hnd hmem hcov
    simp only [List.foldl_cons]
    have step := limitStep_invariant s P kept c hPlen (hclen c (by simp)) hnd hmem hcov
    have main := ih (P ++ [c]) (limitStep s kept c)
      (by
        intro x hx
        rcases List.mem_append.mp hx with h | h
        · exact hPlen x h
        · rw [List.mem_singleton.mp h]
          exact hclen c (by simp))
      (fun x hx => hclen x (by simp [hx]))
      step.1 step.2.1 step.2.2
    rwa [List.append_assoc, List.singleton_append] at main

/-- C2: after `limitset(point_set, n, p_idx, rec_level)` the frame at the
recursion level holds exactly the set of componentwise maxima of the
pivot with each later point over the active slice, with every candidate
strictly dominated by another candidate removed and exactly one copy of
each group of equal candidates kept; the recorded per-depth size is the
length of this list. -/
theorem wfg_c2_limitset_characterisation (s : ℕ) (pts : List Point) (p_idx : ℕ)
    (_hp : p_idx < pts.length) :
    (limitset s pts p_idx).Nodup ∧
    (∀ x, x ∈ limitset s pts p_idx ↔
      (x ∈ limitCandidates s pts p_idx ∧
        ∀ d ∈ limitCandidates s pts p_idx, dom_cmp d x s ≠ DomRel.a_dom_b)) := by
  have main := limit_fold_invariant s (limitCandidates s pts p_idx) [] []
    (by intro x hx; exact absurd hx (List.not_mem_nil x))
    (limitCandidates_length s pts p_idx)
    List.nodup_nil
    (by intro x; simp [NoDomIn])
    (by intro d hd; exact absurd hd (List.not_mem_nil d))
  refine ⟨main.1, fun x => ?_⟩
  rw [show limitset s pts p_idx = (limitCandidates s pts p_idx).foldl (limitStep s) [] from rfl]
  rw [main.2.1 x]
  simp only [List.nil_append]
  constructor
  · rintro ⟨hmem, hnd⟩
    refine ⟨hmem, fun d hd h => ?_⟩
    rw [dom_cmp_a_dom_iff] at h
    exact hnd d hd h
  · rintro ⟨hmem, hnd⟩
    refine ⟨hmem, fun d hd h => ?_⟩
    exact hnd d hd (dom_cmp_a_dom_iff.mpr h)

/-- Witness for C2: a concrete limiting pass where one candidate dominates
the other, leaving a single copy. -/
theorem wfg_c2_witness :
    (limitset 2 [[1, 1], [2, 2], [3, 3]] 0).Nodup ∧
    (∀ x, x ∈ limitset 2 [[1, 1], [2, 2], [3, 3]] 0 ↔
      (x ∈ limitCandidates 2 [[1, 1], [2, 2], [3, 3]] 0 ∧
        ∀ d ∈ limitCandidates 2 [[1, 1], [2, 2], [3, 3]] 0, dom_cmp d x 2 ≠ DomRel.a_dom_b)) :=
  wfg_c2_limitset_characterisation 2 [[1, 1], [2, 2], [3, 3]] 0 (by decide)

/-- C6: when the reference point fails to be componentwise no better than
even one input point (minimisation: some point exceeds the reference in
some coordinate), the boundary validation raises the dominance-violation
error and the compute entry returns that error instead of any numeric
result; the check sits in `verify_before_compute`, outside the recursive
core. -/
theorem wfg_c6_dominance_violation (stop : ℕ) (pts : List Point) (r : Point)
    (hviol : ∃ p ∈ pts, ¬sliceLe p r (r : List ℚ).length) :
    verify_before_compute pts r =
      .error "point does not strictly dominate the reference point" ∧
    hypervolume_compute stop pts r =
      .error "point does not strictly dominate the reference point" := by
  have hv : verify_before_compute pts r =
      .error "point does not strictly dominate the reference point" := by
    unfold verify_before_compute assert_minimisation
    rw [if_neg]
    intro hall
    obtain ⟨p, hp, hnle⟩ := hviol
    exact hnle (hall p hp)
  refine ⟨hv, ?_⟩
  unfold hypervolume_compute
  rw [hv]

/-- Witness for C6: the point (4,4) is not dominated by the reference (3,3),
so the validated entry fails with the dominance error. -/
theorem wfg_c6_witness :
    verify_before_compute [[4, 4]] [3, 3] =
      .error "point does not strictly dominate the reference point" ∧
    hypervolume_compute 2 [[4, 4]] [3, 3] =
      .error "point does not strictly dominate the reference point" :=
  wfg_c6_dominance_violation 2 [[4, 4]] [3, 3] ⟨[4, 4], by decide, by decide⟩

lemma cmpFuncAux_asymm : ∀ (idxs : List ℕ) (a b : Point),
    cmpFuncAux idxs a b = true → cmpFuncAux idxs b a = false := by
  intro idxs
  induction idxs with
  | nil =>
    intro a b h
    exact absurd h (by simp [cmpFuncAux])
  | cons i rest ih =>
    intro a b h
    unfold cmpFuncAux at h ⊢
    by_cases h1 : coord b i < coord a i
    · rw [if_neg (asymm h1), if_pos h1]
    · by_cases h2 : coord a i < coord b i
      · rw [if_neg h1, if_pos h2] at h
        exact absurd h (by simp)
      · rw [if_neg h1, if_neg h2] at h
        rw [if_neg h2, if_neg h1]
        exact ih a b h

lemma cmpFuncAux_false_trans : ∀ (idxs : List ℕ) (a b c : Point),
    cmpFuncAux idxs b a = false → cmpFuncAux idxs c b = false →
    cmpFuncAux idxs c a = false := by
  intro idxs
  induction idxs with
  | nil => intro a b c _ _; rfl
  | cons i rest ih =>
    intro a b c h1 h2
    unfold cmpFuncAux at h1 h2 ⊢
    have hba : ¬coord a i < coord b i := by
      intro hlt
      rw [if_pos hlt] at h1
      exact absurd h1 (by simp)
    have hcb : ¬coord b i < coord c i := by
      intro hlt
      rw [if_pos hlt] at h2
      exact absurd h2 (by simp)
    have hca : ¬coord a i < coord c i := fun hlt =>
      hcb (lt_of_le_of_lt (le_of_not_lt hba) hlt)
    rw [if_neg hca]
    by_cases hlt : coord c i < coord a i
    · rw [if_pos hlt]
    · rw [if_neg hlt]
      have hac : coord a i = coord c i :=
        le_antisymm (le_of_not_lt hlt) (le_of_not_lt hca)
      have hab : coord a i = coord b i := by
        refine le_antisymm ?_ (le_of_not_lt hba)
        rw [hac]
        exact le_of_not_lt hcb
      have hba2 : ¬coord b i < coord a i := by
        rw [← hab]
        exact lt_irrefl _
      have hcb2 : ¬coord c i < coord b i := by
        rw [← hab, ← hac]
        exact lt_irrefl _
      rw [if_neg hba, if_neg hba2] at h1
      rw [if_neg hcb, if_neg hcb2] at h2
      exact ih a b c h1 h2

lemma cmpFuncAux_eq_coords : ∀ (idxs : List ℕ) (a b : Point),
    cmpFuncAux idxs a b = false → cmpFuncAux idxs b a = false →
    ∀ i ∈ idxs, coord a i = coord b i := by
  intro idxs
  induction idxs with
  | nil => intro a b _ _ i hi; exact absurd hi (List.not_mem_nil i)
  | cons j rest ih =>
    intro a b h1 h2 i hi
    unfold cmpFuncAux at h1 h2
    have hab : ¬coord b j < coord a j := by
      intro hlt
      rw [if_pos hlt] at h1
      exact absurd h1 (by simp)
    have hba : ¬coord a j < coord b j := by
      intro hlt
      rw [if_pos hlt] at h2
      exact absurd h2 (by simp)
    have heq : coord a j = coord b j := le_antisymm (le_of_not_lt hab) (le_of_not_lt hba)
    rcases List.mem_cons.mp hi with hij | hir
    · exact hij ▸ heq
    · rw [if_neg hab, if_neg hba] at h1
      rw [if_neg hba, if_neg hab] at h2
      exact ih a b h1 h2 i hir

instance (s : ℕ) : IsTotal Point (wfgOrder s) := ⟨by
  intro a b
  unfold wfgOrder cmp_func
  rcases Bool.eq_false_or_eq_true (cmpFuncAux (List.range s).reverse b a) with h | h
  · exact Or.inr (cmpFuncAux_asymm _ b a h)
  · exact Or.inl h⟩

instance (s : ℕ) : IsTrans Point (wfgOrder s) :=
  ⟨fun a b c hab hbc => cmpFuncAux_false_trans _ a b c hab hbc⟩

lemma wfgOrder_antisymm_of_length {s : ℕ} {a b : Point}
    (ha : (a : List ℚ).length = s) (hb : (b : List ℚ).length = s)
    (h1 : wfgOrder s a b) (h2 : wfgOrder s b a) : a = b := by
  unfold wfgOrder cmp_func at h1 h2
  have hco := cmpFuncAux_eq_coords (List.range s).reverse b a h1 h2
  apply sliceEq_eq_of_length ha hb
  intro i hi
  exact (hco i (by simp [hi])).symm

lemma lexLeB_total : ∀ a b : List ℚ, lexLeB a b = true ∨ lexLeB b a = true := by
  intro a
  induction a with
  | nil => intro b; exact Or.inl rfl
  | cons x as ih =>
    intro b
    cases b with
    | nil => exact Or.inr rfl
    | cons y bs =>
      unfold lexLeB
      rcases lt_trichotomy x y with h | h | h
      · refine Or.inl ?_
        rw [if_pos h]
      · rw [h]
        simp only [lt_self_iff_false, if_false]
        exact ih bs
      · refine Or.inr ?_
        rw [if_pos h]

lemma lexLeB_trans : ∀ a b c : List ℚ,
    lexLeB a b = true → lexLeB b c = true → lexLeB a c = true := by
  intro a
  induction a with
  | nil => intro b c _ _; rfl
  | cons x as ih =>
    intro b c h1 h2
    cases b with
    | nil => exact absurd h1 (by simp [lexLeB])
    | cons y bs =>
      cases c with
      | nil => exact absurd h2 (by simp [lexLeB])
      | cons z cs =>
        unfold lexLeB at h1 h2 ⊢
        by_cases hxy : x < y
        · have hxz : x < z := by
            by_cases hyz : y < z
            · exact lt_trans hxy hyz
            · rw [if_neg hyz] at h2
              by_cases hzy : z < y
              · rw [if_pos hzy] at h2
                exact absurd h2 (by simp)
              · have : y = z := le_antisymm (le_of_not_lt hzy) (le_of_not_lt hyz)
                exact this ▸ hxy
          rw [if_pos hxz]
        · rw [if_neg hxy] at h1
          by_cases hyx : y < x
          · rw [if_pos hyx] at h1
            exact absurd h1 (by simp)
          · have hxy2 : x = y := le_antisymm (le_of_not_lt hyx) (le_of_not_lt hxy)
            rw [if_neg hyx] at h1
            by_cases hyz : y < z
            · have hxz : x < z := by
                rw [hxy2]
                exact hyz
              rw [if_pos hxz]
            · rw [if_neg hyz] at h2
              by_cases hzy : z < y
              · rw [if_pos hzy] at h2
                exact absurd h2 (by simp)
              · have hyz2 : y = z := le_antisymm (le_of_not_lt hzy) (le_of_not_lt hyz)
                have hxz : x = z := hxy2.trans hyz2
                rw [if_neg (by rw [hxz]; exact lt_irrefl _),
                  if_neg (by rw [hxz]; exact lt_irrefl _)]
                rw [if_neg hzy] at h2
                exact ih bs cs h1 h2

lemma lexLeB_antisymm : ∀ a b : List ℚ,
    lexLeB a b = true → lexLeB b a = true → a = b := by
  intro a
  induction a with
  | nil =>
    intro b _ h2
    cases b with
    | nil => rfl
    | cons y bs => exact absurd h2 (by simp [lexLeB])
  | cons x as ih =>
    intro b h1 h2
    cases b with
    | nil => exact absurd h1 (by simp [lexLeB])
    | cons y bs =>
      unfold lexLeB at h1 h2
      by_cases hxy : x < y
      · rw [if_neg (asymm hxy), if_pos hxy] at h2
        exact absurd h2 (by simp)
      · by_cases hyx : y < x
        · rw [if_neg hxy, if_pos hyx] at h1
          exact absurd h1 (by simp)
        · have hxy2 : x = y := le_antisymm (le_of_not_lt hyx) (le_of_not_lt hxy)
          rw [if_neg hxy, if_neg hyx] at h1
          rw [if_neg hyx, if_neg hxy] at h2
          rw [hxy2, ih bs h1 h2]

instance : IsTotal Point lexLe := ⟨fun a b => lexLeB_total a b⟩

instance : IsTrans Point lexLe := ⟨fun a b c h1 h2 => lexLeB_trans a b c h1 h2⟩

instance : IsAntisymm Point lexLe := ⟨fun a b h1 h2 => lexLeB_antisymm a b h1 h2⟩

lemma hv2d_perm {pts1 pts2 : List Point} (hp : pts1.Perm pts2) (r : Point) :
    hv2d pts1 r = hv2d pts2 r := by
  unfold hv2d
  have hsorted : List.insertionSort lexLe pts1 = List.insertionSort lexLe pts2 :=
    List.eq_of_perm_of_sorted
      ((List.perm_insertionSort _ _).trans (hp.trans (List.perm_insertionSort _ _).symm))
      (List.sorted_insertionSort _ _) (List.sorted_insertionSort _ _)
  rw [hsorted]

lemma cons_append_of_all_eq {α : Type} (a : α) :
    ∀ (u v : List α), (∀ x ∈ u, x = a) → a :: (u ++ v) = u ++ a :: v := by
  intro u
  induction u with
  | nil => intro v _; rfl
  | cons x u ih =>
    intro v hall
    have hx : x = a := hall x (List.mem_cons_self x u)
    rw [hx]
    simp only [List.cons_append]
    rw [← ih v (fun y hy => hall y (List.mem_cons_of_mem x hy))]

lemma eq_of_perm_of_sorted_on {α : Type} {r : α → α → Prop} {P : α → Prop}
    (hanti : ∀ a b, P a → P b → r a b → r b a → a = b) :
    ∀ {l1 l2 : List α}, l1.Perm l2 → l1.Sorted r → l2.Sorted r →
      (∀ x ∈ l1, P x) → l1 = l2 := by
  intro l1
  induction l1 with
  | nil =>
    intro l2 hp _ _ _
    exact hp.nil_eq
  | cons a t ih =>
    intro l2 hp hs1 hs2 hP
    have ha2 : a ∈ l2 := hp.subset (List.mem_cons_self a t)
    obtain ⟨u, v, rfl⟩ := List.append_of_mem ha2
    have hp' : t.Perm (u ++ v) := (List.perm_cons a).mp (hp.trans List.perm_middle)
    have ht : t = u ++ v :=
      ih hp' hs1.of_cons (hs2.sublist (by simp))
        (fun x hx => hP x (List.mem_cons_of_mem a hx))
    subst ht
    have hall : ∀ x ∈ u, x = a := by
      intro x hx
      have hxt : x ∈ u ++ v := List.mem_append_left v hx
      have hrxa : r x a :=
        (List.pairwise_append.mp hs2).2.2 x hx a (List.mem_cons_self a v)
      have hrax : r a x := (List.sorted_cons.mp hs1).1 x hxt
      exact hanti x a (hP x (List.mem_cons_of_mem a hxt)) (hP a (List.mem_cons_self a _))
        hrxa hrax
    exact cons_append_of_all_eq a u v hall

lemma perm_pair_cases {α : Type} {a b : α} {l : List α} (h : List.Perm [a, b] l) :
    l = [a, b] ∨ l = [b, a] := by
  cases l with
  | nil => exact absurd h.length_eq (by simp)
  | cons x t =>
    cases t with
    | nil => exact absurd h.length_eq (by simp)
    | cons y t2 =>
      cases t2 with
      | cons z t3 => exact absurd h.length_eq (by simp)
      | nil =>
        have hax : a = x ∨ a = y := by
          have := h.subset (List.mem_cons_self a [b])
          simpa using this
        rcases hax with hx | hy
        · left
          rw [← hx] at h ⊢
          have hb : [b].Perm [y] := h.cons_inv
          have : ([b] : List α) = [y] := List.perm_singleton.mp hb
          rw [List.cons.injEq] at this
          rw [this.1]
        · right
          rw [← hy] at h ⊢
          have hswap : List.Perm [x, a] [a, x] := List.Perm.swap a x []
          have h2 : List.Perm [a, b] [a, x] := h.trans hswap
          have hb : [b].Perm [x] := h2.cons_inv
          have : ([b] : List α) = [x] := List.perm_singleton.mp hb
          rw [List.cons.injEq] at this
          rw [this.1]

lemma compute_hv_pair_comm (f L stop : ℕ) (r a b : Point) :
    compute_hv (f + 1) L stop r [a, b] = compute_hv (f + 1) L stop r [b, a] := by
  unfold compute_hv
  rw [if_neg (by simp : ¬([a, b] : List Point).length = 1),
    if_pos (by simp : ([a, b] : List Point).length = 2),
    if_neg (by simp : ¬([b, a] : List Point).length = 1),
    if_pos (by simp : ([b, a] : List Point).length = 2)]
  have hmax : ((List.range L).map (fun i => coord r i - max (coord a i) (coord b i))) =
      ((List.range L).map (fun i => coord r i - max (coord b i) (coord a i))) :=
    List.map_congr_left (fun i _ => by rw [max_comm])
  simp only [List.getD_cons_zero, List.getD_cons_succ]
  rw [hmax, add_comm (volume_between a r L)]

lemma compute_hv_perm (L : ℕ) (r : Point) :
    ∀ (f stop : ℕ) (pts1 pts2 : List Point), pts1.Perm pts2 →
      (∀ p ∈ pts1, (p : List ℚ).length = L) →
      compute_hv f L stop r pts1 = compute_hv f L stop r pts2 := by
  intro f
  induction f with
  | zero => intro stop pts1 pts2 _ _; rfl
  | succ f ih =>
    intro stop pts1 pts2 hp hlen
    have hn : pts1.length = pts2.length := hp.length_eq
    by_cases h1 : pts1.length = 1
    · obtain ⟨a, rfl⟩ : ∃ a, pts1 = [a] := List.length_eq_one.mp h1
      rw [List.perm_singleton.mp hp.symm]
    · by_cases h2 : pts1.length = 2
      · obtain ⟨a, b, rfl⟩ : ∃ a b, pts1 = [a, b] := List.length_eq_two.mp h2
        rcases perm_pair_cases hp with hq | hq
        · rw [hq]
        · rw [hq]
          exact compute_hv_pair_comm f L stop r a b
      · have h1' : ¬pts2.length = 1 := by rw [← hn]; exact h1
        have h2' : ¬pts2.length = 2 := by rw [← hn]; exact h2
        unfold compute_hv
        simp only [if_neg h1, if_neg h2, if_neg h1', if_neg h2']
        by_cases hst : L = stop
        · simp only [if_pos hst]
          by_cases hs2 : stop = 2
          · simp only [if_pos hs2, hv2d_perm hp r]
          · simp only [if_neg hs2]
            exact ih 2 pts1 pts2 hp hlen
        · simp only [if_neg hst]
          have hsorteq : List.insertionSort (wfgOrder L) pts1 =
              List.insertionSort (wfgOrder L) pts2 :=
            eq_of_perm_of_sorted_on
              (fun a b ha hb rab rba => wfgOrder_antisymm_of_length ha hb rab rba)
              ((List.perm_insertionSort _ _).trans (hp.trans (List.perm_insertionSort _ _).symm))
              (List.sorted_insertionSort _ _) (List.sorted_insertionSort _ _)
              (fun x hx => hlen x ((List.mem_insertionSort (wfgOrder L)).mp hx))
          rw [hsorteq, hn]

/-- C8: the hypervolume computed by `wfg::compute` is invariant under any
permutation of the input point set: the engine copies every point into a
frame row of the reference dimensionality, the sorting comparator is a
total order that is antisymmetric on such rows, and every later step is a
function of the sorted frame. -/
theorem wfg_c8_permutation_invariance (stop : ℕ) (r : Point) (pts1 pts2 : List Point)
    (hperm : pts1.Perm pts2) :
    wfg_compute stop pts1 r = wfg_compute stop pts2 r := by
  unfold wfg_compute
  have hcopy : (pts1.map (fun p => (List.range (r : List ℚ).length).map
      (fun d => coord p d))).Perm
      (pts2.map (fun p => (List.range (r : List ℚ).length).map (fun d => coord p d))) :=
    hperm.map _
  exact congrArg (Option.map Prod.fst)
    (compute_hv_perm ((r : List ℚ).length)
      ((List.range (r : List ℚ).length).map (fun d => coord r d))
      ((r : List ℚ).length + 2) stop _ _ hcopy
      (by
        intro p hpm
        rw [List.mem_map] at hpm
        obtain ⟨q, _, rfl⟩ := hpm
        simp))

/-- Witness for C8: a concrete four-point permutation. -/
theorem wfg_c8_witness :
    wfg_compute 2 [[1, 1, 1], [2, 2, 2], [0, 3, 1], [3, 0, 2]] [4, 4, 4] =
      wfg_compute 2 [[3, 0, 2], [1, 1, 1], [0, 3, 1], [2, 2, 2]] [4, 4, 4] :=
  wfg_c8_permutation_invariance 2 [4, 4, 4]
    [[1, 1, 1], [2, 2, 2], [0, 3, 1], [3, 0, 2]]
    [[3, 0, 2], [1, 1, 1], [0, 3, 1], [2, 2, 2]] (by decide)

lemma getD_mapIdx (l : List ℚ) (f : ℕ → ℚ → ℚ) (i : ℕ) (h : i < l.length) :
    (l.mapIdx f).getD i 0 = f i (l.getD i 0) := by
  have h2 : i < (l.mapIdx f).length := by
    rw [List.length_mapIdx]
    exact h
  rw [List.getD_eq_getElem _ _ h2, List.getD_eq_getElem _ _ h]
  exact List.get_mapIdx l f i h

lemma clampRound_mono {x y : ℚ} (h : x ≤ y) : clampRound x ≤ clampRound y := by
  unfold clampRound
  have h1 : max (-32767 : ℚ) (min 32767 x) ≤ max (-32767 : ℚ) (min 32767 y) :=
    max_le_max le_rfl (min_le_min le_rfl h)
  have h2 : round (max (-32767 : ℚ) (min 32767 x)) ≤ round (max (-32767 : ℚ) (min 32767 y)) := by
    rw [round_eq, round_eq]
    exact Int.floor_le_floor (by linarith)
  exact_mod_cast h2

lemma normalise_bounds_invariant (p : ProblemBase) (h : BoundsInvariant p) :
    BoundsInvariant (normalise_bounds p) := by
  obtain ⟨hlen, hnz, hle⟩ := h
  refine ⟨?_, ?_, fun i hi => ?_⟩
  · show (p.lb.mapIdx _).length = (p.ub.mapIdx _).length
    rw [List.length_mapIdx, List.length_mapIdx]
    exact hlen
  · show (p.lb.mapIdx _).length ≠ 0
    rw [List.length_mapIdx]
    exact hnz
  · have hi2 : i < p.lb.length := by
      have : (normalise_bounds p).lb.length = p.lb.length := by
        show (p.lb.mapIdx _).length = _
        rw [List.length_mapIdx]
      rwa [this] at hi
    show (p.lb.mapIdx _).getD i 0 ≤ (p.ub.mapIdx _).getD i 0
    rw [getD_mapIdx _ _ i hi2, getD_mapIdx _ _ i (by rw [← hlen]; exact hi2)]
    by_cases hc : p.lb.length - p.i_dim ≤ i
    · rw [if_pos hc, if_pos hc]
      exact clampRound_mono (hle i hi2)
    · rw [if_neg hc, if_neg hc]
      exact hle i hi2

lemma pverify_bounds_ok {lb ub : List ℚ} (h : pverify_bounds lb ub = .ok ()) :
    ∀ i, i < lb.length → i < ub.length → lb.getD i 0 ≤ ub.getD i 0 := by
  unfold pverify_bounds at h
  by_cases hc : ((lb.zip ub).any fun q => decide (q.2 < q.1)) = true
  · rw [if_pos hc] at h
    exact absurd h (by simp)
  · intro i hi1 hi2
    by_contra hlt
    apply hc
    rw [List.any_eq_true]
    have hizip : i < (lb.zip ub).length := by
      rw [List.length_zip]
      exact lt_min hi1 hi2
    refine ⟨(lb.getD i 0, ub.getD i 0), ?_, by simpa using not_le.mp hlt⟩
    have hmem := List.getElem_mem (l := lb.zip ub) (h := hizip)
    rwa [List.getElem_zip, ← List.getD_eq_getElem lb _ hi1, ← List.getD_eq_getElem ub _ hi2]
      at hmem

lemma construct_from_iterators_ok {lb ub : List ℚ} {pr : List ℚ × List ℚ}
    (h : construct_from_iterators lb ub = .ok pr) :
    pr = (lb, ub) ∧ lb.length = ub.length ∧ lb.length ≠ 0 ∧
      pverify_bounds lb ub = .ok () := by
  unfold construct_from_iterators at h
  by_cases hc : lb.length ≠ ub.length ∨ lb.length = 0
  · rw [if_pos hc] at h
    exact absurd h (by simp)
  · rw [if_neg hc] at h
    push_neg at hc
    match hv : pverify_bounds lb ub with
    | .error e =>
      rw [hv] at h
      exact absurd h (by simp)
    | .ok () =>
      rw [hv] at h
      simp only [Except.ok.injEq] at h
      exact ⟨h.symm, hc.1, hc.2, rfl⟩

/-- C10: every constructor and bounds-setting operation of the problem base
class either raises a value error (leaving the stored bounds unobserved)
or returns a state satisfying the bounds invariant: equal non-zero bound
lengths with each lower bound at most the corresponding upper bound. -/
theorem problem_base_c10_bounds_invariant :
    (∀ (lb ub : List ℚ) (ni nf nc nic : ℤ) (p : ProblemBase),
      problem_construct lb ub ni nf nc nic = .ok p → BoundsInvariant p) ∧
    (∀ (p : ProblemBase) (lb ub : List ℚ) (p2 : ProblemBase), BoundsInvariant p →
      set_bounds p lb ub = .ok p2 → BoundsInvariant p2) ∧
    (∀ (p : ProblemBase) (lb : List ℚ) (p2 : ProblemBase), BoundsInvariant p →
      set_lb p lb = .ok p2 → BoundsInvariant p2) ∧
    (∀ (p : ProblemBase) (ub : List ℚ) (p2 : ProblemBase), BoundsInvariant p →
      set_ub p ub = .ok p2 → BoundsInvariant p2) := by
  refine ⟨?_, ?_, ?_, ?_⟩
  · intro lb ub ni nf nc nic p h
    unfold problem_construct at h
    by_cases hc1 : ni < 0 ∨ nf < 0 ∨ nc < 0 ∨ nic < 0
    · rw [if_pos hc1] at h
      exact absurd h (by simp)
    · rw [if_neg hc1] at h
      by_cases hc2 : nf = 0
      · rw [if_pos hc2] at h
        exact absurd h (by simp)
      · rw [if_neg hc2] at h
        by_cases hc3 : nc < nic
        · rw [if_pos hc3] at h
          exact absurd h (by simp)
        · rw [if_neg hc3] at h
          match hcfi : construct_from_iterators lb ub with
          | .error e =>
            rw [hcfi] at h
            exact absurd h (by simp)
          | .ok pr =>
            obtain ⟨rfl, hlen, hnz, hv⟩ := construct_from_iterators_ok hcfi
            rw [hcfi] at h
            simp only [] at h
            by_cases hc4 : ((lb.length : ℤ) < ni)
            · rw [if_pos hc4] at h
              exact absurd h (by simp)
            · rw [if_neg hc4] at h
              simp only [Except.ok.injEq] at h
              rw [← h]
              exact normalise_bounds_invariant _
                ⟨hlen, hnz, fun i hi => pverify_bounds_ok hv i hi (hlen ▸ hi)⟩
  · intro p lb ub p2 hinv hok
    unfold set_bounds at hok
    by_cases hc : lb.length ≠ ub.length ∨ lb.length ≠ p.lb.length
    · rw [if_pos hc] at hok
      exact absurd hok (by simp)
    · rw [if_neg hc] at hok
      push_neg at hc
      match hv : pverify_bounds lb ub with
      | .error e =>
        rw [hv] at hok
        exact absurd hok (by simp)
      | .ok () =>
        rw [hv] at hok
        simp only [Except.ok.injEq] at hok
        rw [← hok]
        refine normalise_bounds_invariant _ ⟨hc.1, ?_, fun i hi => ?_⟩
        · show lb.length ≠ 0
          rw [hc.2]
          exact hinv.2.1
        · exact pverify_bounds_ok hv i hi (hc.1 ▸ hi)
  · intro p lb p2 hinv hok
    unfold set_lb at hok
    by_cases hc : lb.length ≠ p.lb.length
    · rw [if_pos hc] at hok
      exact absurd hok (by simp)
    · rw [if_neg hc] at hok
      push_neg at hc
      match hv : pverify_bounds lb p.ub with
      | .error e =>
        rw [hv] at hok
        exact absurd hok (by simp)
      | .ok () =>
        rw [hv] at hok
        simp only [Except.ok.injEq] at hok
        rw [← hok]
        refine normalise_bounds_invariant _ ⟨?_, ?_, fun i hi => ?_⟩
        · show lb.length = p.ub.length
          rw [hc]
          exact hinv.1
        · show lb.length ≠ 0
          rw [hc]
          exact hinv.2.1
        · exact pverify_bounds_ok hv i hi (by rw [← hinv.1, ← hc]; exact hi)
  · intro p ub p2 hinv hok
    unfold set_ub at hok
    by_cases hc : ub.length ≠ p.lb.length
    · rw [if_pos hc] at hok
      exact absurd hok (by simp)
    · rw [if_neg hc] at hok
      push_neg at hc
      match hv : pverify_bounds p.lb ub with
      | .error e =>
        rw [hv] at hok
        exact absurd hok (by simp)
      | .ok () =>
        rw [hv] at hok
        simp only [Except.ok.injEq] at hok
        rw [← hok]
        refine normalise_bounds_invariant _ ⟨?_, hinv.2.1, fun i hi => ?_⟩
        · show p.lb.length = ub.length
          rw [hc]
        · exact pverify_bounds_ok hv i hi (by rw [hc]; exact hi)

/-- Witness for C10: concrete construction and bounds updates on a
one-dimensional problem. -/
theorem problem_base_c10_witness :
    BoundsInvariant { lb := [0], ub := [1], i_dim := 0 } ∧
    BoundsInvariant { lb := [2], ub := [3], i_dim := 0 } ∧
    BoundsInvariant { lb := [-1], ub := [1], i_dim := 0 } ∧
    BoundsInvariant { lb := [0], ub := [5], i_dim := 0 } :=
  ⟨problem_base_c10_bounds_invariant.1 [0] [1] 0 1 0 0 _ (by with_unfolding_all rfl),
   problem_base_c10_bounds_invariant.2.1 { lb := [0], ub := [1], i_dim := 0 } [2] [3] _
     (by decide) (by with_unfolding_all rfl),
   problem_base_c10_bounds_invariant.2.2.1 { lb := [0], ub := [1], i_dim := 0 } [-1] _
     (by decide) (by with_unfolding_all rfl),
   problem_base_c10_bounds_invariant.2.2.2 { lb := [0], ub := [1], i_dim := 0 } [5] _
     (by decide) (by with_unfolding_all rfl)⟩
